import Mathlib

set_option autoImplicit false

namespace Workset

/-! Shallow embedding of the repository-lifecycle core of `workset`
(src/lib.rs and src/tui/tree.rs). Rust strings are modelled as `List Char`,
`SystemTime` as seconds-since-epoch (`Nat`, epoch = 0), commit timestamps as
`Int` (gix yields `i64` seconds), and `anyhow::Result<T>` as `Except GErr T`. -/

/-- Abstract error payload standing for `anyhow::Error` / gix error values. -/
abbrev GErr := String

instance instDecidableEqExcept {ε α : Type} [DecidableEq ε] [DecidableEq α] :
    DecidableEq (Except ε α) := fun x y =>
  match x, y with
  | .ok a, .ok b => if h : a = b then .isTrue (by simp [h]) else .isFalse (by simp [h])
  | .error a, .error b => if h : a = b then .isTrue (by simp [h]) else .isFalse (by simp [h])
  | .ok _, .error _ => .isFalse (by simp)
  | .error _, .ok _ => .isFalse (by simp)

/-- Convenience: the character list of a string literal. -/
def chs (s : String) : List Char := s.data

/-! ## Pattern parsing (`RepoPattern` in src/lib.rs) -/

/-- A repository pattern `[provider/]path` (struct `RepoPattern`). -/
structure RepoPattern where
  provider : Option (List Char)
  path : List Char
deriving DecidableEq, Repr

/-- Rust `str::splitn(2, sep)` on a string: the part before the first
separator and, when a separator occurs at all, the remainder after it. -/
def splitn2 (sep : Char) : List Char → List Char × Option (List Char)
  | [] => ([], none)
  | c :: rest =>
    if c = sep then ([], some rest)
    else
      match splitn2 sep rest with
      | (before, after) => (c :: before, after)

/-- `RepoPattern::from_str`: split on the first `/`; if the first segment
contains a `.` it is a provider and the rest is the path, otherwise the whole
input is the path. Every branch returns `Ok`. -/
def RepoPattern.from_str (s : List Char) : Except GErr RepoPattern :=
  match splitn2 '/' s with
  | (first, some rest) =>
    if '.' ∈ first then .ok { provider := some first, path := rest }
    else .ok { provider := none, path := s }
  | (_, none) => .ok { provider := none, path := s }

/-- `RepoPattern::full_path`: reconstitute `provider/path`, or the bare path
when no provider was parsed. -/
def RepoPattern.full_path (p : RepoPattern) : List Char :=
  match p.provider with
  | some provider => provider ++ '/' :: p.path
  | none => p.path

/-! ## Repository inspection (`check_repo_status` and friends, src/lib.rs)

The gix queries the inspector makes are modelled as fields of `Repo`: each
field records the answer the underlying git store would give to the
corresponding gix call, in the order the source performs them. -/

/-- Status classification (enum `RepoStatus`). -/
inductive RepoStatus where
  | Clean
  | Dirty
  | NoCommits
  | Unpushed
deriving DecidableEq, Repr

/-- Result of dereferencing a git reference to an object:
`id` is the commit identity (`obj.id`), `commitTime` the result of
`obj.try_into_commit()?.time()?.seconds`. -/
structure GitObject where
  id : Nat
  commitTime : Except GErr Int
deriving DecidableEq, Repr

/-- What kind of working-tree difference an item reports: a tracked file
that differs between index and worktree, or an untracked file. -/
inductive WtKind where
  | tracked_change
  | untracked
deriving DecidableEq, Repr

/-- One item yielded by the index/worktree status iterator (a modified or
deleted tracked file, or an untracked file): its kind, its path relative to
the repository root, and the filesystem modification time of the file, when
the `fs::metadata` lookup for it succeeds. -/
structure WtItem where
  kind : WtKind
  relaPath : List Char
  mtime : Option Nat
deriving DecidableEq, Repr

/-- Abstract repository handle: the answers to the gix queries made by
`check_repo_status_with_handle` and `get_repo_modification_time_with_handle`.

* `headReferent` — `repo.head()` then `try_into_referent()`: `.error` when
  `head()` fails, `.ok none` when HEAD has no referent, `.ok (some ())` when
  HEAD resolves to a born branch.
* `statusPlatform` — whether `repo.status(Discard)` succeeds.
* `indexWorktree` — the successfully yielded items of
  `untracked_files(Files).into_index_worktree_iter(..)` (the code flattens
  away per-item errors), or the error when building the iterator fails.
* `remoteRefName` — `repo.branch_remote_ref_name(head, Fetch)`.
* `findRemoteRef` — `repo.find_reference(remote_ref_name)`.
* `headObject` — `head_ref.id().object()`.
* `remoteObject` — `remote_ref.id().object()`. -/
structure Repo where
  headReferent : Except GErr (Option Unit)
  statusPlatform : Except GErr Unit
  indexWorktree : Except GErr (List WtItem)
  remoteRefName : Option (Except GErr (List Char))
  findRemoteRef : Except GErr Unit
  headObject : Except GErr GitObject
  remoteObject : Except GErr GitObject
deriving DecidableEq, Repr

/-- `check_repo_status_with_handle`: single-pass classification. Mirrors the
source control flow branch by branch; every branch yields `Ok`. -/
def check_repo_status_with_handle (repo : Repo) : Except GErr RepoStatus :=
  match repo.headReferent with
  | .error _ => .ok .NoCommits
  | .ok none => .ok .NoCommits
  | .ok (some _) =>
    match repo.statusPlatform with
    | .error _ => .ok .Clean
    | .ok _ =>
      let has_changes :=
        match repo.indexWorktree with
        | .ok items => !items.isEmpty
        | .error _ => false
      if has_changes then .ok .Dirty
      else
        match repo.remoteRefName with
        | some (.ok _) =>
          match repo.findRemoteRef with
          | .ok _ =>
            match repo.headObject with
            | .ok localObj =>
              match repo.remoteObject with
              | .ok remoteObj =>
                if localObj.id ≠ remoteObj.id then .ok .Unpushed else .ok .Clean
              | .error _ => .ok .Clean
            | .error _ => .ok .Clean
          | .error _ => .ok .Clean
        | some (.error _) => .ok .Clean
        | none => .ok .Clean

/-- `check_repo_status`: open the repository (the argument records whether
`gix::open` succeeds); an open failure degrades to `NoCommits`. -/
def check_repo_status (openResult : Except GErr Repo) : Except GErr RepoStatus :=
  match openResult with
  | .error _ => .ok .NoCommits
  | .ok repo => check_repo_status_with_handle repo

/-! ## Modification times (`get_repo_modification_time_with_handle`) -/

/-- Rust `timestamp as u64` on the `i64` commit seconds (then
`UNIX_EPOCH + Duration::from_secs`): a wrapping cast to the 64-bit range. -/
def castU64 (i : Int) : Nat := (i.emod (2 ^ 64)).toNat

/-- `get_last_commit_time`: resolve HEAD to a commit and take its timestamp;
each failing step bails with an error. -/
def get_last_commit_time (repo : Repo) : Except GErr Nat :=
  match repo.headReferent with
  | .error e => .error ("Failed to get head: " ++ e)
  | .ok none => .error "Failed to get head referent"
  | .ok (some _) =>
    match repo.headObject with
    | .error e => .error ("Failed to get commit object: " ++ e)
    | .ok obj =>
      match obj.commitTime with
      | .error e => .error e
      | .ok secs => .ok (castU64 secs)

/-- `get_dirty_files_modification_time`: starting from the epoch, keep the
latest filesystem modification time over the status iterator's items (items
whose metadata lookup fails are skipped); a status-platform failure
propagates, an iterator-construction failure falls through to the epoch. -/
def get_dirty_files_modification_time (repo : Repo) : Except GErr Nat :=
  match repo.statusPlatform with
  | .error e => .error e
  | .ok _ =>
    match repo.indexWorktree with
    | .error _ => .ok 0
    | .ok items =>
      .ok (items.foldl
        (fun latest item =>
          match item.mtime with
          | some modified => if modified > latest then modified else latest
          | none => latest)
        0)

/-- `get_repo_modification_time_with_handle`: commit time for clean
repositories; otherwise the max of commit time and dirty-file time, either
input defaulting to the epoch on failure. -/
def get_repo_modification_time_with_handle (repo : Repo) (is_clean : Bool) :
    Except GErr Nat :=
  if is_clean then
    get_last_commit_time repo
  else
    let commit_time :=
      match get_last_commit_time repo with
      | .ok t => t
      | .error _ => 0
    let dirty_files_time :=
      match get_dirty_files_modification_time repo with
      | .ok t => t
      | .error _ => 0
    .ok (max commit_time dirty_files_time)

/-! ## Repository discovery (`find_git_repositories`) -/

/-- A filesystem tree: a plain file, or a directory with named entries in
`read_dir` order. -/
inductive FsTree where
  | file : FsTree
  | dir : List (List Char × FsTree) → FsTree

def FsTree.isDir : FsTree → Bool
  | .file => false
  | .dir _ => true

/-- The literal `.git` entry name. -/
def dotGit : List Char := ['.', 'g', 'i', 't']

mutual
/-- `find_git_repositories`: a directory containing a `.git` entry is itself
the single result (no descent); otherwise recurse into every subdirectory
except a literal `.git` child. Paths are segment lists rooted at the call. -/
def find_git_repositories (path : List (List Char)) : FsTree → List (List (List Char))
  | .file => []
  | .dir entries =>
    if entries.any (fun e => e.1 = dotGit) then [path]
    else find_git_repositories_entries path entries

/-- The `read_dir` loop of `find_git_repositories`: skip the `.git` child,
recurse into directories only, append results in order. -/
def find_git_repositories_entries (path : List (List Char)) :
    List (List Char × FsTree) → List (List (List Char))
  | [] => []
  | (name, sub) :: rest =>
    (if name = dotGit then []
     else
       match sub with
       | .dir es => find_git_repositories (path ++ [name]) (.dir es)
       | .file => []) ++
    find_git_repositories_entries path rest
end

/-! ## Lifecycle: `Workspace::drop` and `Workspace::drop_all`

The filesystem effects of one batch are modelled as an event trace. Each
matching repository is described by a `RepoCtx`: its identity, the outcome of
`gix::open` for the safety check, and the outcomes its `store_in_library` and
`fs::remove_dir_all` calls would have if reached. The Rust `?` operator on
`store_in_library` and `remove_dir_all` is modelled by returning the error and
abandoning the rest of the repository list, exactly as the source loop does. -/

/-- A filesystem side effect performed during a drop batch. -/
inductive DropEvent where
  | skipped : List Char → DropEvent
  | stored : List Char → DropEvent
  | removed : List Char → DropEvent
deriving DecidableEq, Repr

/-- One repository matched by the drop pattern / discovery pass. -/
structure RepoCtx where
  name : List Char
  openResult : Except GErr Repo
  storeResult : Except GErr Unit
  removeResult : Except GErr Unit
deriving DecidableEq, Repr

/-- The safety gate at the top of the loop body shared by `drop` and
`drop_all`: proceed when `force` is set, otherwise classify and skip
`Dirty`/`Unpushed` repositories (`Ok false` means "continue to the next
repository"). -/
def dropGate (force : Bool) (ctx : RepoCtx) : Except GErr Bool :=
  if force then .ok true
  else
    match check_repo_status ctx.openResult with
    | .error e => .error e
    | .ok .Dirty => .ok false
    | .ok .Unpushed => .ok false
    | .ok _ => .ok true

def dropOne (delete force : Bool) (ctx : RepoCtx) : List DropEvent × Except GErr Unit :=
  match dropGate force ctx with
  | .error e => ([], .error e)
  | .ok false => ([.skipped ctx.name], .ok ())
  | .ok true =>
    if delete = false then
      match ctx.storeResult with
      | .error e => ([], .error e)
      | .ok _ =>
        match ctx.removeResult with
        | .error e => ([.stored ctx.name], .error e)
        | .ok _ => ([.stored ctx.name, .removed ctx.name], .ok ())
    else
      match ctx.removeResult with
      | .error e => ([], .error e)
      | .ok _ => ([.removed ctx.name], .ok ())

/-- `Workspace::drop`, applied to the repositories matching the pattern:
process in order, a skip continues with the next repository, an error from
`store_in_library` or `remove_dir_all` returns immediately. -/
def Workspace.drop (delete force : Bool) : List RepoCtx → List DropEvent × Except GErr Unit
  | [] => ([], .ok ())
  | ctx :: rest =>
    match dropOne delete force ctx with
    | (evs, .error e) => (evs, .error e)
    | (evs, .ok _) =>
      let r := Workspace.drop delete force rest
      (evs ++ r.1, r.2)

/-- `Workspace::drop_all`, applied to the repositories discovered under the
current directory: the same per-repository loop body (the source duplicates
it), additionally counting dropped and skipped repositories for the summary. -/
def Workspace.drop_all (delete force : Bool) (dropped skipped : Nat) :
    List RepoCtx → List DropEvent × Nat × Nat × Except GErr Unit
  | [] => ([], dropped, skipped, .ok ())
  | ctx :: rest =>
    match dropGate force ctx with
    | .error e => ([], dropped, skipped, .error e)
    | .ok false =>
      let r := Workspace.drop_all delete force dropped (skipped + 1) rest
      (.skipped ctx.name :: r.1, r.2)
    | .ok true =>
      if delete = false then
        match ctx.storeResult with
        | .error e => ([], dropped, skipped, .error e)
        | .ok _ =>
          match ctx.removeResult with
          | .error e => ([.stored ctx.name], dropped, skipped, .error e)
          | .ok _ =>
            let r := Workspace.drop_all delete force (dropped + 1) skipped rest
            (.stored ctx.name :: .removed ctx.name :: r.1, r.2)
      else
        match ctx.removeResult with
        | .error e => ([], dropped, skipped, .error e)
        | .ok _ =>
          let r := Workspace.drop_all delete force (dropped + 1) skipped rest
          (.removed ctx.name :: r.1, r.2)

/-! ## Tree model (`TreeNode::flatten`, src/tui/tree.rs) -/

/-- Record describing one repository row (struct `RepoInfo`). -/
structure RepoInfo where
  path : List Char
  display_name : List Char
  is_clean : Bool
  modification_time : Option Nat
  size_bytes : Option Nat
deriving DecidableEq, Repr

/-- A node of the grouped repository tree (struct `TreeNode`). -/
inductive TreeNode where
  | node : List Char → Option RepoInfo → List TreeNode → Bool → TreeNode

def TreeNode.name : TreeNode → List Char
  | .node n _ _ _ => n

def TreeNode.repo_info : TreeNode → Option RepoInfo
  | .node _ info _ _ => info

def TreeNode.children : TreeNode → List TreeNode
  | .node _ _ cs _ => cs

def TreeNode.expanded : TreeNode → Bool
  | .node _ _ _ e => e

/-- The path separator literal. -/
def slash : Char := '/'

mutual
/-- `TreeNode::flatten`: emit this node with its depth, index path and full
path; when expanded, follow with the flattened children in order. -/
def TreeNode.flatten (t : TreeNode) (depth : Nat) (index_path : List Nat)
    (parent_path : List Char) : List (TreeNode × Nat × List Nat × List Char) :=
  match t with
  | .node name repoInfo children expanded =>
    let full_path :=
      if parent_path = [] then
        match repoInfo with
        | some repo => repo.display_name
        | none => name
      else
        match repoInfo with
        | some repo => repo.display_name
        | none => parent_path ++ slash :: name
    (TreeNode.node name repoInfo children expanded, depth, index_path, full_path) ::
      (if expanded then
        TreeNode.flattenChildren children 0 (depth + 1) index_path full_path
      else [])

/-- The enumerated-children loop of `TreeNode::flatten`: flatten child `i`
with the index path extended by `i`, then the rest with the counter bumped. -/
def TreeNode.flattenChildren (cs : List TreeNode) (i depth : Nat)
    (index_path : List Nat) (full_path : List Char) :
    List (TreeNode × Nat × List Nat × List Char) :=
  match cs with
  | [] => []
  | c :: rest =>
    TreeNode.flatten c depth (index_path ++ [i]) full_path ++
      TreeNode.flattenChildren rest (i + 1) depth index_path full_path
end

/-- `flatten_trees`: flatten a forest, root `i` starting with index path
`[i]` and an empty parent path. -/
def flatten_trees_go (trees : List TreeNode) (i : Nat) :
    List (TreeNode × Nat × List Nat × List Char) :=
  match trees with
  | [] => []
  | t :: rest => t.flatten 0 [i] [] ++ flatten_trees_go rest (i + 1)

def flatten_trees (trees : List TreeNode) : List (TreeNode × Nat × List Nat × List Char) :=
  flatten_trees_go trees 0

/-! ## Spec-side definitions used to state the claims -/

/-- The full path the specification assigns to a node under a given parent
path: a repository node's full path is its display name; a directory node's
is its own name `/`-joined onto the accumulated (nonempty) parent path. -/
def fullPathSpec (t : TreeNode) (parent_path : List Char) : List Char :=
  match t.repo_info with
  | some repo => repo.display_name
  | none => if parent_path = [] then t.name else parent_path ++ slash :: t.name

/-! ## Concrete instances used by witnesses and counterexamples -/

/-- A repository with one commit, no changes and no upstream configured. -/
def cleanRepo : Repo :=
  { headReferent := .ok (some ())
    statusPlatform := .ok ()
    indexWorktree := .ok []
    remoteRefName := none
    findRemoteRef := .error "no such reference"
    headObject := .ok { id := 1, commitTime := .ok 100 }
    remoteObject := .ok { id := 1, commitTime := .ok 100 } }

/-- A repository whose HEAD resolves to no commit. -/
def noHeadRepo : Repo := { cleanRepo with headReferent := .ok none }

/-- A repository with one untracked file. -/
def dirtyRepo : Repo :=
  { cleanRepo with
    indexWorktree :=
      .ok [{ kind := .untracked, relaPath := chs "scratch.txt", mtime := some 42 }] }

/-- A clean repository whose HEAD differs from its resolvable upstream. -/
def unpushedRepo : Repo :=
  { cleanRepo with
    remoteRefName := some (.ok (chs "refs/remotes/origin/main"))
    findRemoteRef := .ok ()
    remoteObject := .ok { id := 2, commitTime := .ok 90 } }

/-- A clean repository whose `store_in_library` call fails. -/
def storeFailCtx : RepoCtx :=
  { name := chs "alpha"
    openResult := .ok cleanRepo
    storeResult := .error "store failed"
    removeResult := .ok () }

/-- A clean repository whose `store_in_library` call would succeed. -/
def storeOkCtx : RepoCtx :=
  { name := chs "beta"
    openResult := .ok cleanRepo
    storeResult := .ok ()
    removeResult := .ok () }

/-- The discovery scenario from the spec: `a/.git`, `a/nested/.git`,
`b/c/.git`. -/
def demoFsTree : FsTree :=
  .dir
    [(chs "a", .dir [(dotGit, .dir []), (chs "nested", .dir [(dotGit, .dir [])])]),
     (chs "b", .dir [(chs "c", .dir [(dotGit, .dir [])])])]

/-- A repository leaf node as `TreeNode::new_repo` builds it. -/
def repoLeaf : TreeNode :=
  .node (chs "widgets")
    (some
      { path := chs "/w/github.com/acme/widgets"
        display_name := chs "github.com/acme/widgets"
        is_clean := true
        modification_time := some 10
        size_bytes := none })
    [] false

/-- An expanded directory node holding `repoLeaf`. -/
def acmeDir : TreeNode := .node (chs "acme") none [repoLeaf] true

/-- A collapsed directory node holding `repoLeaf`. -/
def collapsedDir : TreeNode := .node (chs "other") none [repoLeaf] false

/-! ## Theorems -/

theorem splitn2_eq_append (sep : Char) :
    ∀ s before after, splitn2 sep s = (before, some after) → s = before ++ sep :: after := by
  intro s
  induction s with
  | nil =>
    intro before after h
    simp [splitn2] at h
  | cons c tail ih =>
    intro before after h
    by_cases hc : c = sep
    · rw [splitn2, if_pos hc] at h
      simp only [Prod.mk.injEq, Option.some.injEq] at h
      rw [← h.1, ← h.2, hc]
      rfl
    · rcases hr : splitn2 sep tail with ⟨a, b⟩
      rw [splitn2, if_neg hc, hr] at h
      simp only [Prod.mk.injEq] at h
      rw [← h.1]
      have := ih a after (by rw [hr, h.2])
      rw [List.cons_append, ← this]

/-- C10: pattern parsing is total and round-trips: `RepoPattern::from_str`
succeeds on every input, and `full_path` of the parsed pattern returns the
original string, whether or not a provider segment was split off. -/
theorem from_str_full_path_round_trip (s : List Char) :
    ∃ p, RepoPattern.from_str s = .ok p ∧ p.full_path = s := by
  rcases hs : splitn2 '/' s with ⟨first, rest?⟩
  cases rest? with
  | none =>
    refine ⟨{ provider := none, path := s }, ?_, rfl⟩
    unfold RepoPattern.from_str
    rw [hs]
  | some rest =>
    by_cases hdot : '.' ∈ first
    · refine ⟨{ provider := some first, path := rest }, ?_, ?_⟩
      · unfold RepoPattern.from_str
        rw [hs]
        simp [hdot]
      · show first ++ '/' :: rest = s
        exact (splitn2_eq_append '/' s first rest hs).symm
    · refine ⟨{ provider := none, path := s }, ?_, rfl⟩
      unfold RepoPattern.from_str
      rw [hs]
      simp [hdot]

/-- C3: a repository whose HEAD resolves to no commit is classified
`NoCommits`, regardless of working-tree content, untracked files or upstream
configuration (all other fields of `repo` are arbitrary). -/
theorem noCommits_of_unresolved_head (repo : Repo)
    (h : repo.headReferent = .ok none ∨ ∃ e, repo.headReferent = .error e) :
    check_repo_status_with_handle repo = .ok .NoCommits := by
  unfold check_repo_status_with_handle
  rcases h with h | ⟨e, h⟩ <;> rw [h]

theorem noCommits_of_unresolved_head_witness :
    check_repo_status_with_handle noHeadRepo = .ok RepoStatus.NoCommits :=
  noCommits_of_unresolved_head noHeadRepo (Or.inl rfl)

/-- C4: a repository with a resolvable HEAD whose status iterator reports at
least one item (a modified/deleted tracked file or an untracked file) is
classified `Dirty`; the upstream fields are arbitrary, so this takes
precedence over the unpushed check. -/
theorem dirty_of_changes (repo : Repo) (items : List WtItem)
    (h1 : repo.headReferent = .ok (some ()))
    (h2 : repo.statusPlatform = .ok ())
    (h3 : repo.indexWorktree = .ok items)
    (h4 : items ≠ []) :
    check_repo_status_with_handle repo = .ok .Dirty := by
  obtain ⟨a, as, rfl⟩ := List.exists_cons_of_ne_nil h4
  unfold check_repo_status_with_handle
  rw [h1, h2, h3]
  simp

theorem dirty_of_changes_witness :
    check_repo_status_with_handle dirtyRepo = .ok RepoStatus.Dirty :=
  dirty_of_changes dirtyRepo
    [{ kind := .untracked, relaPath := chs "scratch.txt", mtime := some 42 }]
    rfl rfl rfl (List.cons_ne_nil _ _)

/-- C5: for a repository with commits and no local changes, a missing or
unresolvable upstream yields `Clean` (never `Unpushed`); with a resolvable
upstream the result is `Unpushed` exactly when the local and tracking commit
identities differ, and `Clean` when they are equal. -/
theorem upstream_comparison (repo : Repo)
    (h1 : repo.headReferent = .ok (some ()))
    (h2 : repo.statusPlatform = .ok ())
    (h3 : repo.indexWorktree = .ok []) :
    (repo.remoteRefName = none → check_repo_status_with_handle repo = .ok .Clean) ∧
    (∀ e, repo.remoteRefName = some (.error e) →
      check_repo_status_with_handle repo = .ok .Clean) ∧
    (∀ n e, repo.remoteRefName = some (.ok n) → repo.findRemoteRef = .error e →
      check_repo_status_with_handle repo = .ok .Clean) ∧
    (∀ n localObj remoteObj, repo.remoteRefName = some (.ok n) →
      repo.findRemoteRef = .ok () →
      repo.headObject = .ok localObj → repo.remoteObject = .ok remoteObj →
      check_repo_status_with_handle repo =
        .ok (if localObj.id ≠ remoteObj.id then .Unpushed else .Clean)) := by
  refine ⟨?_, ?_, ?_, ?_⟩
  · intro h4
    simp [check_repo_status_with_handle, h1, h2, h3, h4]
  · intro e h4
    simp [check_repo_status_with_handle, h1, h2, h3, h4]
  · intro n e h4 h5
    simp [check_repo_status_with_handle, h1, h2, h3, h4, h5]
  · intro n localObj remoteObj h4 h5 h6 h7
    by_cases hid : localObj.id = remoteObj.id <;>
      simp [check_repo_status_with_handle, h1, h2, h3, h4, h5, h6, h7, hid]

theorem upstream_comparison_witness :
    check_repo_status_with_handle cleanRepo = .ok RepoStatus.Clean ∧
    check_repo_status_with_handle unpushedRepo = .ok RepoStatus.Unpushed :=
  ⟨(upstream_comparison cleanRepo rfl rfl rfl).1 rfl,
   (upstream_comparison unpushedRepo rfl rfl rfl).2.2.2
     (chs "refs/remotes/origin/main")
     { id := 1, commitTime := .ok 100 } { id := 2, commitTime := .ok 90 }
     rfl rfl rfl rfl⟩

/-- C6: `check_repo_status` never panics or returns an error: it is `Ok` on
every input, an open failure degrades to `NoCommits`, and a status-platform
failure on a repository with a resolvable HEAD degrades to `Clean`. -/
theorem check_repo_status_never_fails :
    (∀ x : Except GErr Repo, (check_repo_status x).isOk = true) ∧
    (∀ e : GErr, check_repo_status (.error e) = .ok .NoCommits) ∧
    (∀ (repo : Repo) (e : GErr), repo.headReferent = .ok (some ()) →
      repo.statusPlatform = .error e →
      check_repo_status_with_handle repo = .ok .Clean) := by
  refine ⟨?_, fun e => rfl, ?_⟩
  · intro x
    cases x with
    | error e => rfl
    | ok repo =>
      show (check_repo_status_with_handle repo).isOk = true
      simp only [check_repo_status_with_handle]
      repeat' split <;> try rfl
  · intro repo e h1 h2
    unfold check_repo_status_with_handle
    rw [h1, h2]

theorem check_repo_status_never_fails_witness :
    (check_repo_status (.error "not a repository")).isOk = true ∧
    check_repo_status (.error "not a repository") = .ok RepoStatus.NoCommits ∧
    check_repo_status_with_handle { cleanRepo with statusPlatform := .error "locked" } =
      .ok RepoStatus.Clean :=
  ⟨check_repo_status_never_fails.1 _, check_repo_status_never_fails.2.1 _,
   check_repo_status_never_fails.2.2 _ "locked" rfl rfl⟩

theorem dirty_foldl_max (items : List WtItem) :
    ∀ init : Nat,
      items.foldl
        (fun latest item =>
          match item.mtime with
          | some modified => if modified > latest then modified else latest
          | none => latest)
        init =
      (items.filterMap WtItem.mtime).foldl max init := by
  induction items with
  | nil => intro init; rfl
  | cons it rest ih =>
    intro init
    cases hm : it.mtime with
    | none => simp only [List.foldl_cons, List.filterMap_cons, hm, ih]
    | some m =>
      simp only [List.foldl_cons, List.filterMap_cons, hm, ih]
      congr 1
      by_cases h : m > init
      · rw [if_pos h, max_eq_right (le_of_lt h)]
      · rw [if_neg h, max_eq_left (Nat.le_of_not_lt h)]

/-- C8: `get_repo_modification_time` returns the HEAD commit timestamp for a
repository flagged clean; otherwise the maximum of the HEAD commit timestamp
and the most recent filesystem modification time among the changed/untracked
files, either input defaulting to the epoch when it cannot be obtained. -/
theorem modification_time_policy (repo : Repo) :
    (∀ obj secs, repo.headReferent = .ok (some ()) → repo.headObject = .ok obj →
      obj.commitTime = .ok secs →
      get_repo_modification_time_with_handle repo true = .ok (castU64 secs)) ∧
    (∀ items, repo.statusPlatform = .ok () → repo.indexWorktree = .ok items →
      get_repo_modification_time_with_handle repo false =
        .ok (max ((get_last_commit_time repo).toOption.getD 0)
          ((items.filterMap WtItem.mtime).foldl max 0))) := by
  constructor
  · intro obj secs h1 h2 h3
    show get_last_commit_time repo = .ok (castU64 secs)
    simp [get_last_commit_time, h1, h2, h3]
  · intro items h2 h3
    have hstep : get_repo_modification_time_with_handle repo false =
        .ok (max
          (match get_last_commit_time repo with
            | .ok t => t
            | .error _ => 0)
          (match get_dirty_files_modification_time repo with
            | .ok t => t
            | .error _ => 0)) := rfl
    have hct : (match get_last_commit_time repo with
        | .ok t => t
        | .error _ => 0) = (get_last_commit_time repo).toOption.getD 0 := by
      cases get_last_commit_time repo <;> rfl
    have hdt : (match get_dirty_files_modification_time repo with
        | .ok t => t
        | .error _ => 0) = (items.filterMap WtItem.mtime).foldl max 0 := by
      have : get_dirty_files_modification_time repo =
          .ok (items.foldl
            (fun latest item =>
              match item.mtime with
              | some modified => if modified > latest then modified else latest
              | none => latest)
            0) := by
        unfold get_dirty_files_modification_time
        rw [h2, h3]
      rw [this, dirty_foldl_max items 0]
    rw [hstep, hct, hdt]

theorem find_git_repositories_entries_eq (path : List (List Char)) :
    ∀ entries : List (List Char × FsTree),
      find_git_repositories_entries path entries =
        (entries.filter (fun e => !decide (e.1 = dotGit) && e.2.isDir)).flatMap
          (fun e => find_git_repositories (path ++ [e.1]) e.2) := by
  intro entries
  induction entries with
  | nil => rfl
  | cons e rest ih =>
    rcases e with ⟨name, sub⟩
    rw [find_git_repositories_entries.eq_def]
    by_cases hname : name = dotGit
    · simp [hname, ih, List.filter_cons]
    · cases sub with
      | file => simp [hname, ih, FsTree.isDir, List.filter_cons]
      | dir es => simp [hname, ih, FsTree.isDir, List.filter_cons]

/-- C7: a directory containing a `.git` entry is itself a result and is not
descended into; otherwise discovery recurses into every subdirectory except a
literal `.git` child; on the spec's scenario tree with `a/.git`,
`a/nested/.git` and `b/c/.git` the results are exactly `a` and `b/c`
(`a/nested` excluded). -/
theorem find_git_repositories_spec :
    (∀ (path : List (List Char)) (entries : List (List Char × FsTree)),
      entries.any (fun e => e.1 = dotGit) = true →
      find_git_repositories path (.dir entries) = [path]) ∧
    (∀ (path : List (List Char)) (entries : List (List Char × FsTree)),
      entries.any (fun e => e.1 = dotGit) = false →
      find_git_repositories path (.dir entries) =
        (entries.filter (fun e => !decide (e.1 = dotGit) && e.2.isDir)).flatMap
          (fun e => find_git_repositories (path ++ [e.1]) e.2)) ∧
    find_git_repositories [] demoFsTree = [[chs "a"], [chs "b", chs "c"]] := by
  refine ⟨?_, ?_, by decide⟩
  · intro path entries h
    simp [find_git_repositories, h]
  · intro path entries h
    simp [find_git_repositories, h, find_git_repositories_entries_eq]

theorem find_git_repositories_spec_witness :
    find_git_repositories [chs "w"]
        (.dir [(dotGit, .file), (chs "sub", .dir [(dotGit, .dir [])])]) =
      [[chs "w"]] ∧
    find_git_repositories [] (.dir [(chs "b", .dir [(chs "c", .dir [(dotGit, .dir [])])])]) =
      [[chs "b", chs "c"]] :=
  ⟨find_git_repositories_spec.1 [chs "w"] _ (by decide),
   by
    rw [find_git_repositories_spec.2.1 [] _ (by decide)]
    decide⟩

theorem modification_time_policy_witness :
    get_repo_modification_time_with_handle cleanRepo true = .ok 100 ∧
    get_repo_modification_time_with_handle dirtyRepo false = .ok 100 :=
  ⟨(modification_time_policy cleanRepo).1 { id := 1, commitTime := .ok 100 } 100 rfl rfl rfl,
   (modification_time_policy dirtyRepo).2
     [{ kind := .untracked, relaPath := chs "scratch.txt", mtime := some 42 }] rfl rfl⟩

theorem dropOne_removed (delete force : Bool) (ctx : RepoCtx) (r : List Char)
    (h : DropEvent.removed r ∈ (dropOne delete force ctx).1) :
    r = ctx.name ∧ (delete = true ∨ ctx.storeResult = .ok ()) := by
  unfold dropOne at h
  split at h
  · simp at h
  · simp at h
  · split at h
    · split at h
      · simp at h
      · rename_i heqStore
        split at h
        · simp at h
        · simp at h
          exact ⟨h, Or.inr heqStore⟩
    · rename_i hdel
      split at h
      · simp at h
      · simp at h
        cases delete with
        | false => exact absurd rfl hdel
        | true => exact ⟨h, Or.inl rfl⟩

theorem drop_removed_of_mem (delete force : Bool) :
    ∀ (ctxs : List RepoCtx) (r : List Char),
      DropEvent.removed r ∈ (Workspace.drop delete force ctxs).1 →
      ∃ ctx ∈ ctxs, ctx.name = r ∧ (delete = true ∨ ctx.storeResult = .ok ()) := by
  intro ctxs
  induction ctxs with
  | nil => intro r h; simp [Workspace.drop] at h
  | cons ctx rest ih =>
    intro r h
    rw [Workspace.drop] at h
    rcases hd : dropOne delete force ctx with ⟨evs, res⟩
    rw [hd] at h
    cases res with
    | error e =>
      have hone := dropOne_removed delete force ctx r (by rw [hd]; exact h)
      exact ⟨ctx, List.mem_cons_self ctx rest, hone.1.symm, hone.2⟩
    | ok u =>
      simp only [List.mem_append] at h
      rcases h with h | h
      · have hone := dropOne_removed delete force ctx r (by rw [hd]; exact h)
        exact ⟨ctx, List.mem_cons_self ctx rest, hone.1.symm, hone.2⟩
      · obtain ⟨c, hc, hcn, hcs⟩ := ih r h
        exact ⟨c, List.mem_cons_of_mem ctx hc, hcn, hcs⟩

theorem drop_all_removed_of_mem (delete force : Bool) :
    ∀ (ctxs : List RepoCtx) (dropped skipped : Nat) (r : List Char),
      DropEvent.removed r ∈ (Workspace.drop_all delete force dropped skipped ctxs).1 →
      ∃ ctx ∈ ctxs, ctx.name = r ∧ (delete = true ∨ ctx.storeResult = .ok ()) := by
  intro ctxs
  induction ctxs with
  | nil => intro dropped skipped r h; simp [Workspace.drop_all] at h
  | cons ctx rest ih =>
    intro dropped skipped r h
    rw [Workspace.drop_all] at h
    split at h
    · simp at h
    · simp only [List.mem_cons] at h
      rcases h with h | h
      · exact absurd h (by simp)
      · obtain ⟨c, hc, hcn, hcs⟩ := ih dropped (skipped + 1) r h
        exact ⟨c, List.mem_cons_of_mem ctx hc, hcn, hcs⟩
    · split at h
      · split at h
        · simp at h
        · rename_i heqStore
          split at h
          · simp at h
          · simp only [List.mem_cons] at h
            rcases h with h | h | h
            · exact absurd h (by simp)
            · simp only [DropEvent.removed.injEq] at h
              exact ⟨ctx, List.mem_cons_self ctx rest, h.symm, Or.inr heqStore⟩
            · obtain ⟨c, hc, hcn, hcs⟩ := ih (dropped + 1) skipped r h
              exact ⟨c, List.mem_cons_of_mem ctx hc, hcn, hcs⟩
      · rename_i hdel
        split at h
        · simp at h
        · simp only [List.mem_cons] at h
          rcases h with h | h
          · simp only [DropEvent.removed.injEq] at h
            refine ⟨ctx, List.mem_cons_self ctx rest, h.symm, ?_⟩
            cases delete with
            | false => exact absurd rfl hdel
            | true => exact Or.inl rfl
          · obtain ⟨c, hc, hcn, hcs⟩ := ih (dropped + 1) skipped r h
            exact ⟨c, List.mem_cons_of_mem ctx hc, hcn, hcs⟩

/-- C1: in both `drop` and `drop_all`, a repository directory is removed
only when the caller requested permanent deletion (`delete = true`) or the
`store_in_library` call for that repository returned success; in particular
a store failure is never followed by removal of that repository. -/
theorem drop_removal_requires_store_or_delete (delete force : Bool)
    (ctxs : List RepoCtx) (dropped skipped : Nat) (r : List Char) :
    (DropEvent.removed r ∈ (Workspace.drop delete force ctxs).1 →
      ∃ ctx ∈ ctxs, ctx.name = r ∧ (delete = true ∨ ctx.storeResult = .ok ())) ∧
    (DropEvent.removed r ∈ (Workspace.drop_all delete force dropped skipped ctxs).1 →
      ∃ ctx ∈ ctxs, ctx.name = r ∧ (delete = true ∨ ctx.storeResult = .ok ())) :=
  ⟨drop_removed_of_mem delete force ctxs r,
   drop_all_removed_of_mem delete force ctxs dropped skipped r⟩

theorem drop_removal_requires_store_or_delete_witness :
    ∃ ctx ∈ [storeOkCtx], ctx.name = chs "beta" ∧
      (false = true ∨ ctx.storeResult = .ok ()) :=
  (drop_removal_requires_store_or_delete false false [storeOkCtx] 0 0 (chs "beta")).1
    (by decide)

/-- C2 counterexample: with two clean repositories where the first store
fails, `drop_all` aborts with that error: the failing repository is left in
place, but the second repository is never processed (no store, no removal),
so the batch does not continue past the first store error. -/
theorem drop_all_store_failure_stops_batch :
    Workspace.drop_all false false 0 0 [storeFailCtx, storeOkCtx] =
      ([], 0, 0, .error "store failed") ∧
    DropEvent.removed (chs "beta") ∉
      (Workspace.drop_all false false 0 0 [storeFailCtx, storeOkCtx]).1 ∧
    DropEvent.stored (chs "beta") ∉
      (Workspace.drop_all false false 0 0 [storeFailCtx, storeOkCtx]).1 := by
  refine ⟨by decide, by decide, by decide⟩

/-- C2 (amended): when `store_in_library` fails for a repository in a batch
`drop`/`drop_all`, that repository's directory is not removed, but the error
aborts the whole batch: it becomes the operation's overall result and the
remaining repositories are not processed at all. -/
theorem drop_store_failure_aborts_batch (force : Bool) (ctx : RepoCtx)
    (rest : List RepoCtx) (e : GErr) (dropped skipped : Nat)
    (hgate : dropGate force ctx = .ok true)
    (hstore : ctx.storeResult = .error e) :
    Workspace.drop false force (ctx :: rest) = ([], .error e) ∧
    Workspace.drop_all false force dropped skipped (ctx :: rest) =
      ([], dropped, skipped, .error e) := by
  constructor
  · rw [Workspace.drop]
    have hone : dropOne false force ctx = ([], .error e) := by
      unfold dropOne
      rw [hgate]
      simp [hstore]
    rw [hone]
  · rw [Workspace.drop_all]
    rw [hgate]
    simp [hstore]

theorem flattenChildren_eq (depth : Nat) (index_path : List Nat) (full_path : List Char) :
    ∀ (cs : List TreeNode) (i : Nat),
      TreeNode.flattenChildren cs i depth index_path full_path =
        (cs.zip (List.range' i cs.length)).flatMap
          (fun p => p.1.flatten depth (index_path ++ [p.2]) full_path) := by
  intro cs
  induction cs with
  | nil => intro i; rfl
  | cons c rest ih =>
    intro i
    rw [TreeNode.flattenChildren.eq_def]
    simp only [List.length_cons, List.range'_succ, List.zip_cons_cons, List.flatMap_cons,
      ih (i + 1)]

theorem flatten_trees_go_eq :
    ∀ (trees : List TreeNode) (i : Nat),
      flatten_trees_go trees i =
        (trees.zip (List.range' i trees.length)).flatMap
          (fun p => p.1.flatten 0 [p.2] []) := by
  intro trees
  induction trees with
  | nil => intro i; rfl
  | cons t rest ih =>
    intro i
    simp only [flatten_trees_go, List.length_cons, List.range'_succ, List.zip_cons_cons,
      List.flatMap_cons, ih (i + 1)]

/-- C9: `flatten` is a depth-first pre-order traversal: every visited node is
emitted first with its 0-based index path and its accumulated `/`-joined full
path (a repository node's full path is its display name); a collapsed node's
children are skipped entirely, an expanded node is followed by its children
flattened in order with the index path extended by the 0-based child index;
`flatten_trees` starts root `i` at index path `[i]` with an empty parent
path. -/
theorem flatten_preorder_spec :
    (∀ (t : TreeNode) (depth : Nat) (index_path : List Nat) (parent_path : List Char),
      t.expanded = false →
      t.flatten depth index_path parent_path =
        [(t, depth, index_path, fullPathSpec t parent_path)]) ∧
    (∀ (t : TreeNode) (depth : Nat) (index_path : List Nat) (parent_path : List Char),
      t.expanded = true →
      t.flatten depth index_path parent_path =
        (t, depth, index_path, fullPathSpec t parent_path) ::
          (t.children.zip (List.range t.children.length)).flatMap
            (fun p => p.1.flatten (depth + 1) (index_path ++ [p.2])
              (fullPathSpec t parent_path))) ∧
    (∀ trees : List TreeNode,
      flatten_trees trees =
        (trees.zip (List.range trees.length)).flatMap
          (fun p => p.1.flatten 0 [p.2] [])) := by
  refine ⟨?_, ?_, ?_⟩
  · intro t depth index_path parent_path hexp
    cases t with
    | node n info cs e =>
      simp only [TreeNode.expanded] at hexp
      subst hexp
      simp only [TreeNode.flatten]
      cases info with
      | none =>
        by_cases hpp : parent_path = [] <;>
          simp [fullPathSpec, hpp, TreeNode.repo_info, TreeNode.name]
      | some repo =>
        by_cases hpp : parent_path = [] <;>
          simp [fullPathSpec, hpp, TreeNode.repo_info, TreeNode.name]
  · intro t depth index_path parent_path hexp
    cases t with
    | node n info cs e =>
      simp only [TreeNode.expanded] at hexp
      subst hexp
      simp only [TreeNode.flatten, TreeNode.children, List.range_eq_range']
      rw [flattenChildren_eq]
      cases info with
      | none =>
        by_cases hpp : parent_path = [] <;>
          simp [fullPathSpec, hpp, TreeNode.repo_info, TreeNode.name]
      | some repo =>
        by_cases hpp : parent_path = [] <;>
          simp [fullPathSpec, hpp, TreeNode.repo_info, TreeNode.name]
  · intro trees
    rw [flatten_trees, flatten_trees_go_eq, List.range_eq_range']

theorem flatten_preorder_spec_witness :
    collapsedDir.flatten 1 [2] (chs "gitlab.com") =
      [(collapsedDir, 1, [2], fullPathSpec collapsedDir (chs "gitlab.com"))] ∧
    acmeDir.flatten 0 [0] (chs "github.com") =
      (acmeDir, 0, [0], fullPathSpec acmeDir (chs "github.com")) ::
        (acmeDir.children.zip (List.range acmeDir.children.length)).flatMap
          (fun p => p.1.flatten 1 ([0] ++ [p.2])
            (fullPathSpec acmeDir (chs "github.com"))) :=
  ⟨flatten_preorder_spec.1 collapsedDir 1 [2] (chs "gitlab.com") rfl,
   flatten_preorder_spec.2.1 acmeDir 0 [0] (chs "github.com") rfl⟩

theorem drop_store_failure_aborts_batch_witness :
    Workspace.drop false false [storeFailCtx, storeOkCtx] = ([], .error "store failed") ∧
    Workspace.drop_all false false 0 0 [storeFailCtx, storeOkCtx] =
      ([], 0, 0, .error "store failed") :=
  drop_store_failure_aborts_batch false storeFailCtx [storeOkCtx] "store failed" 0 0
    (by decide) (by decide)

end Workset
